import Mathlib

/-
Verification of the reporting pipeline (reporting.py, export_users.py).

Python strings are modelled as lists of characters (abbrev Str), so that
string operations (split, startswith, endswith, slicing, lower) become
list operations with the same semantics.  Nullable cells of the pandas
tables are modelled as Option Str.  Code that raises a Python exception
is modelled with Except.  Char.toLower agrees with Python str.lower on
ASCII, which covers every comparison made by this program.
-/

/-- A Python string: a list of characters. -/
abbrev Str := List Char

/-- Turn a Lean string literal into the Str model. -/
def str (s : String) : Str := s.data

/-- Python str.lower (ASCII). -/
def lower (s : Str) : Str := s.map Char.toLower

/-- Python s.split(sep) for a one-character separator: splits at every
occurrence of sep and keeps empty segments; the empty string gives
a single empty segment. -/
def splitOnChar (sep : Char) : Str → List Str
  | [] => [[]]
  | c :: cs =>
    if c = sep then [] :: splitOnChar sep cs
    else
      match splitOnChar sep cs with
      | [] => [[c]]
      | t :: ts => (c :: t) :: ts

/-- pandas Series.unique: the distinct values in order of first appearance. -/
def pdUnique {α : Type} [DecidableEq α] (l : List α) : List α :=
  l.foldl (fun acc a => if a ∈ acc then acc else acc ++ [a]) []

/-- reporting.count_unique_developers: len(users_df[email].str.lower().unique()).
The email column may contain null cells (Option), which str.lower leaves
untouched and unique counts as one value. -/
def count_unique_developers (emails : List (Option Str)) : Nat :=
  (pdUnique (emails.map (Option.map lower))).length

/-- The fixed environment label set of reporting.get_environment. -/
def envLabels : List Str :=
  [str "dev", str "qa", str "prod", str "prd", str "sbx", str "staging", str "test"]

/-- The loop of reporting.get_environment: return the lower-cased first
hyphen token whose lower-casing is in the label list, else None. -/
def envLoop : List Str → Option Str
  | [] => none
  | p :: ps => if lower p ∈ envLabels then some (lower p) else envLoop ps

/-- reporting.get_environment on a (non-null) service-name string. -/
def get_environment (s : Str) : Option Str :=
  envLoop (splitOnChar '-' s)

/-- reporting.get_environment applied to a possibly-null cell: the function
has no null guard, so a null argument raises (None.split / float.split is
an AttributeError in Python), modelled as Except.error. -/
def get_environmentCell : Option Str → Except Unit (Option Str)
  | none => Except.error ()
  | some s => Except.ok (get_environment s)

/-- The prefix git@ tested by reporting.get_github_org. -/
def gitAtPre : Str := str "git@"

/-- The prefix http tested by reporting.get_github_org. -/
def httpPre : Str := str "http"

/-- reporting.get_github_org: None for a null cell; for a git@ URL,
split on every colon and, when there is a second part, take it up to the
first slash; for an http URL, split on slash and take index 3 when there
are more than 3 parts; otherwise None. -/
def get_github_org : Option Str → Option Str
  | none => none
  | some url =>
    if gitAtPre.isPrefixOf url then
      match splitOnChar ':' url with
      | _ :: p :: _ => some ((splitOnChar '/' p).headD [])
      | _ => none
    else if httpPre.isPrefixOf url then
      (splitOnChar '/' url).get? 3
    else none

/-- A row of the services table: the columns used by the program,
each of the string cells possibly null. -/
structure Row where
  service : Option Str
  repository : Option Str
  created_at : Str
deriving DecidableEq

/-- The literal suffix -runtime. -/
def rtSuffix : Str := str "-runtime"

/-- service[:-8], the prefix with -runtime stripped (len of -runtime is 8). -/
def stripRT (s : Str) : Str := s.take (s.length - 8)

/-- Per-workspace state built by reporting.analyze_services: the workload
name set and the per-environment / per-organization workload sets
(Python defaultdict(set), modelled as an association list in insertion
order). -/
structure WS where
  workloads : Finset Str
  env_workloads : List (Str × Finset Str)
  org_workloads : List (Str × Finset Str)
deriving DecidableEq

/-- The fresh workspace value installed by the discovery pass. -/
def emptyWS : WS := ⟨∅, [], []⟩

/-- defaultdict(set) update m[k].add(v). -/
def addTo (m : List (Str × Finset Str)) (k v : Str) : List (Str × Finset Str) :=
  if m.any fun kv => kv.1 = k then
    m.map fun kv => if kv.1 = k then (kv.1, insert v kv.2) else kv
  else m ++ [(k, insert v ∅)]

/-- Python dict assignment workspaces[p] = fresh: overwrite in place when
the key exists (keeping its position), else append. -/
def upsertWS (l : List (Str × WS)) (p : Str) : List (Str × WS) :=
  if l.any fun pw => pw.1 = p then
    l.map fun pw => if pw.1 = p then (pw.1, emptyWS) else pw
  else l ++ [(p, emptyWS)]

/-- One row of the discovery pass of reporting.analyze_services: skip a
null name; a name ending in -runtime registers the stripped name as a
workspace key. -/
def discoverStep (acc : List (Str × WS)) (r : Row) : List (Str × WS) :=
  match r.service with
  | none => acc
  | some s => if rtSuffix.isSuffixOf s then upsertWS acc (stripRT s) else acc

/-- The discovery pass (first loop of analyze_services). -/
def discoverWS (rows : List Row) : List (Str × WS) :=
  rows.foldl discoverStep []

/-- The body executed when a service is assigned to a workspace: add the
name to the workload set and, when the environment / organization labels
are truthy (not None and not empty), to the corresponding subset. -/
def addWorkload (w : WS) (s : Str) (repo : Option Str) : WS :=
  { workloads := insert s w.workloads
    env_workloads :=
      match get_environment s with
      | some e => if e = [] then w.env_workloads else addTo w.env_workloads e s
      | none => w.env_workloads
    org_workloads :=
      match get_github_org repo with
      | some o => if o = [] then w.org_workloads else addTo w.org_workloads o s
      | none => w.org_workloads }

/-- One row of the assignment pass of reporting.analyze_services: skip a
null name; find the first workspace key (in discovery order) of which
key ++ - is a prefix of the name, then stop (break); a name ending in
-runtime is not counted as a workload. -/
def wsStep (wss : List (Str × WS)) (r : Row) : List (Str × WS) :=
  match r.service with
  | none => wss
  | some s =>
    match wss.find? fun pw => (pw.1 ++ ['-']).isPrefixOf s with
    | none => wss
    | some pw =>
      if rtSuffix.isSuffixOf s then wss
      else wss.map fun qw => if qw.1 = pw.1 then (qw.1, addWorkload qw.2 s r.repository) else qw

/-- reporting.analyze_services: the discovery pass followed by the
assignment pass, returning the workspace table (from which the function
also derives its counts and statistics). -/
def analyze_services (rows : List Row) : List (Str × WS) :=
  rows.foldl wsStep (discoverWS rows)

/-- The key list of a workspace table, in insertion (= discovery) order. -/
def wsKeys (wss : List (Str × WS)) : List Str := wss.map Prod.fst

/-- The workload set stored under key p in a workspace table
(empty when p is not a key). -/
def wlWS (wss : List (Str × WS)) (p : Str) : Finset Str :=
  match wss.find? fun pw => pw.1 = p with
  | some pw => pw.2.workloads
  | none => ∅

/-- The workload set that analyze_services computes for workspace p. -/
def workloadsOf (rows : List Row) (p : Str) : Finset Str :=
  wlWS (analyze_services rows) p

/-- A calendar date with a valid month, the target of timestamp parsing
(month 0 is January, ..., month 11 is December). -/
structure Date where
  year : Int
  month : Fin 12
  day : Nat
deriving DecidableEq

/-- The twelve English month names. -/
def monthNames : List Str :=
  [str "January", str "February", str "March", str "April", str "May",
   str "June", str "July", str "August", str "September", str "October",
   str "November", str "December"]

/-- strftime %B: the English name of a month. -/
def monthName (i : Fin 12) : Str := monthNames.getD i []

/-- The workload filter mask of reporting.analyze_monthly_creations:
null names are excluded; otherwise the name must extend some workspace
key with a hyphen and must not end in -runtime. -/
def workload_mask (keys : List Str) (r : Row) : Bool :=
  match r.service with
  | none => false
  | some s => (keys.any fun w => (w ++ ['-']).isPrefixOf s) && !(rtSuffix.isSuffixOf s)

/-- pd.to_datetime over a column: parse every timestamp, failing the whole
column when any cell is unparseable.  The parser itself is pandas
internals, so it is a parameter of the model. -/
def parseAll (parse : Str → Option Date) : List Row → Option (List Date)
  | [] => some []
  | r :: rs =>
    match parse r.created_at, parseAll parse rs with
    | some d, some ds => some (d :: ds)
    | _, _ => none

/-- reporting.analyze_monthly_creations: filter the table down to the
workload rows, parse all their timestamps (a parse failure aborts the
aggregation, pandas raises), group by month name and reindex to the full
twelve months with zero fill.  The result maps each month name, in
calendar order, to the number of workload rows created in that month of
any year. -/
def analyze_monthly_creations (parse : Str → Option Date) (rows : List Row)
    (keys : List Str) : Except Unit (List (Str × Nat)) :=
  match parseAll parse (rows.filter (workload_mask keys)) with
  | none => Except.error ()
  | some dates =>
    Except.ok ((List.finRange 12).map fun i =>
      (monthName i, (dates.filter fun d => d.month = i).length))

/-- The roles object of a user node (export_users). -/
structure Roles where
  admin : Bool
deriving DecidableEq

/-- A group node of a user (export_users). -/
structure GroupNode where
  name : Str
deriving DecidableEq

/-- A raw user node returned by the GraphQL query of export_users:
roles and the group list may be null. -/
structure RawUser where
  id : Str
  name : Str
  email : Str
  roles : Option Roles
  pluralId : Str
  deletedAt : Option Str
  profile : Option Str
  insertedAt : Str
  updatedAt : Str
  groups : Option (List GroupNode)
deriving DecidableEq

/-- The flattened CSV record produced by export_users.process_user. -/
structure FlatUser where
  id : Str
  name : Str
  email : Str
  admin : Bool
  plural_id : Str
  deleted_at : Option Str
  profile : Option Str
  inserted_at : Str
  updated_at : Str
  groups : Str
deriving DecidableEq

/-- Python ;.join over a list of strings. -/
def joinSemi (xs : List Str) : Str := List.intercalate [';'] xs

/-- export_users.process_user: flatten a raw user node.  admin falls back
to False when roles is falsy (null); groups is the ;-join of the group
names when the group list is truthy (non-null and non-empty), else the
empty string. -/
def process_user (u : RawUser) : FlatUser :=
  { id := u.id
    name := u.name
    email := u.email
    admin :=
      match u.roles with
      | some r => r.admin
      | none => false
    plural_id := u.pluralId
    deleted_at := u.deletedAt
    profile := u.profile
    inserted_at := u.insertedAt
    updated_at := u.updatedAt
    groups :=
      match u.groups with
      | none => []
      | some gs => if gs.isEmpty then [] else joinSemi (gs.map GroupNode.name) }

/-- The numeric value of an ASCII digit. -/
def digitVal (c : Char) : Option Nat := if c.isDigit then some (c.toNat - 48) else none

/-- A decimal number from a non-empty all-digit string. -/
def natOfDigits (s : Str) : Option Nat :=
  if s = [] then none else
  s.foldl (fun acc c =>
    match acc, digitVal c with
    | some n, some d => some (n * 10 + d)
    | _, _ => none) (some 0)

/-- A concrete timestamp parser (ISO YYYY-MM-DD), one instance of the
pandas to_datetime parameter, used to run the aggregator on concrete
inputs. -/
def parseYMD (s : Str) : Option Date :=
  match splitOnChar '-' s with
  | [y, m, d] =>
    match natOfDigits y, natOfDigits m, natOfDigits d with
    | some yn, some mn, some dn =>
      if h : 1 ≤ mn ∧ mn ≤ 12 then some ⟨(yn : Int), ⟨mn - 1, by omega⟩, dn⟩ else none
    | _, _, _ => none
  | _ => none

/-- Example table: two runtime services, one a dash-extension of the other. -/
def exDiscoverRows : List Row :=
  [⟨some (str "a-runtime"), none, []⟩, ⟨some (str "a-b-runtime"), none, []⟩]

/-- Example table of the discovery/assignment property. -/
def exPayRows : List Row :=
  [⟨some (str "payments-runtime"), none, []⟩, ⟨some (str "payments-api"), none, []⟩,
   ⟨some (str "payments-worker"), none, []⟩, ⟨some (str "other-runtime"), none, []⟩]

/-- Example table: two workloads created in March of different years. -/
def exMRows : List Row :=
  [⟨some (str "a-api"), none, str "2021-03-05"⟩, ⟨some (str "a-worker"), none, str "2023-03-09"⟩]

/-- An example raw user with null roles and null groups. -/
def exUser : RawUser :=
  ⟨str "u1", str "nm", str "e@x", none, str "p", none, none, str "t1", str "t2", none⟩

/-- The organization of an SSH-form URL as the specification words it:
split ONCE on the colon and, when a second part exists, take its
substring before the first slash.  This is the spec-side definition,
to be compared with get_github_org. -/
def splitOnceColon (url : Str) : List Str :=
  if ':' ∈ url then
    [url.takeWhile fun c => !(c == ':'), (url.dropWhile fun c => !(c == ':')).drop 1]
  else [url]

/-- Spec-side SSH organization extraction (split once on the colon). -/
def sshOrgSplitOnceSpec (url : Str) : Option Str :=
  match splitOnceColon url with
  | _ :: p :: _ => some (p.takeWhile fun c => !(c == '/'))
  | _ => none

theorem splitOnChar_ne_nil (sep : Char) (s : Str) : splitOnChar sep s ≠ [] := by
  cases s with
  | nil => simp [splitOnChar]
  | cons c cs =>
    simp only [splitOnChar]
    by_cases h : c = sep
    · simp [h]
    · simp only [if_neg h]
      cases splitOnChar sep cs <;> simp

theorem headD_splitOnChar (sep : Char) (s : Str) :
    (splitOnChar sep s).headD [] = s.takeWhile (fun c => !(c == sep)) := by
  induction s with
  | nil => simp [splitOnChar]
  | cons c cs ih =>
    simp only [splitOnChar, List.takeWhile]
    by_cases h : c = sep
    · simp [h]
    · simp only [if_neg h]
      have hb : (c == sep) = false := by
        simpa using h
      cases hsp : splitOnChar sep cs with
      | nil => exact absurd hsp (splitOnChar_ne_nil sep cs)
      | cons t ts =>
        simp only [hb, Bool.not_false, List.headD_cons]
        rw [hsp] at ih
        simpa using ih

theorem envLoop_eq_find (toks : List Str) :
    envLoop toks = (toks.find? fun p => decide (lower p ∈ envLabels)).map lower := by
  induction toks with
  | nil => simp [envLoop]
  | cons p ps ih =>
    simp only [envLoop, List.find?_cons]
    by_cases h : lower p ∈ envLabels
    · simp [h]
    · simp [h, ih]

theorem foldl_dedup_mem {α : Type} [DecidableEq α] (l : List α) (acc : List α) (a : α) :
    a ∈ l.foldl (fun acc x => if x ∈ acc then acc else acc ++ [x]) acc ↔ a ∈ acc ∨ a ∈ l := by
  induction l generalizing acc with
  | nil => simp
  | cons x xs ih =>
    simp only [List.foldl_cons]
    by_cases hx : x ∈ acc
    · rw [if_pos hx, ih, List.mem_cons]
      constructor
      · rintro (h | h)
        · exact Or.inl h
        · exact Or.inr (Or.inr h)
      · rintro (h | rfl | h)
        · exact Or.inl h
        · exact Or.inl hx
        · exact Or.inr h
    · rw [if_neg hx, ih, List.mem_cons, List.mem_append, List.mem_singleton]
      tauto

theorem foldl_dedup_nodup {α : Type} [DecidableEq α] (l : List α) (acc : List α)
    (h : acc.Nodup) :
    (l.foldl (fun acc x => if x ∈ acc then acc else acc ++ [x]) acc).Nodup := by
  induction l generalizing acc with
  | nil => simpa using h
  | cons x xs ih =>
    simp only [List.foldl_cons]
    by_cases hx : x ∈ acc
    · rw [if_pos hx]; exact ih acc h
    · rw [if_neg hx]
      refine ih (acc ++ [x]) ?_
      simp [List.nodup_append, h, hx]

theorem pdUnique_length_eq_card {α : Type} [DecidableEq α] (l : List α) :
    (pdUnique l).length = l.toFinset.card := by
  have hmem : ∀ a, a ∈ pdUnique l ↔ a ∈ l := by
    intro a
    simpa using foldl_dedup_mem l [] a
  have hnd : (pdUnique l).Nodup := foldl_dedup_nodup l [] (by simp)
  have hfin : (pdUnique l).toFinset = l.toFinset := by
    apply Finset.ext
    intro a
    simp [List.mem_toFinset, hmem]
  rw [← List.toFinset_card_of_nodup hnd, hfin]

/-- C3: the environment classifier returns the lower-cased first hyphen
token that is (case-insensitively) a canonical label, and absent when no
token matches; foo-prod-bar yields prod and a name with no canonical
token yields absent.  A null/missing input, however, is not answered
with absent: the function has no null guard and raises. -/
theorem claim_C3 :
    (∀ s : Str, get_environment s =
        ((splitOnChar '-' s).find? fun p => decide (lower p ∈ envLabels)).map lower) ∧
    get_environment (str "foo-prod-bar") = some (str "prod") ∧
    get_environment (str "alpha-beta") = none ∧
    get_environmentCell none = Except.error () := by
  refine ⟨fun s => envLoop_eq_find (splitOnChar '-' s), by decide, by decide, rfl⟩

/-- C3 counterexample: on a null/missing input the classifier does not
return absent (it raises, modelled as Except.error), refuting the
null clause of the claim. -/
theorem claim_C3_counterexample : get_environmentCell none ≠ Except.ok none := by
  simp [get_environmentCell]

/-- C4 counterexample: on the git@ URL git@h:a:b/c the claimed
split-once reading yields a:b while the code (which splits on every
colon) yields a. -/
theorem claim_C4_counterexample :
    gitAtPre.isPrefixOf (str "git@h:a:b/c") = true ∧
    sshOrgSplitOnceSpec (str "git@h:a:b/c") = some (str "a:b") ∧
    get_github_org (some (str "git@h:a:b/c")) = some (str "a") := by
  refine ⟨by decide, by decide, by decide⟩

/-- C4 (amended): for every URL starting with git@, the organization is
the second part of the split on EVERY colon (the text between the first
and the second colon, or to the end), truncated before its first slash;
absent when the URL has no colon. -/
theorem claim_C4 : ∀ url : Str, gitAtPre.isPrefixOf url = true →
    get_github_org (some url) =
      ((splitOnChar ':' url).get? 1).map fun p => p.takeWhile fun c => !(c == '/') := by
  intro url h
  simp only [get_github_org, h, if_pos]
  cases hsp : splitOnChar ':' url with
  | nil => simp
  | cons a rest =>
    cases rest with
    | nil => simp
    | cons p ts =>
      simp only [List.get?_cons_succ, List.get?_cons_zero, Option.map_some]
      simpa using headD_splitOnChar '/' p

/-- C4 witness: git@github.com:acme/repo.git yields acme. -/
theorem claim_C4_witness :
    gitAtPre.isPrefixOf (str "git@github.com:acme/repo.git") = true ∧
    get_github_org (some (str "git@github.com:acme/repo.git")) = some (str "acme") :=
  ⟨by decide, (claim_C4 (str "git@github.com:acme/repo.git") (by decide)).trans (by decide)⟩

/-- C5: for every URL starting with http (and not with git@), the
organization is the slash-segment at index 3 when there are more than 3
segments and absent otherwise; a null cell yields absent. -/
theorem claim_C5 :
    (∀ url : Str, httpPre.isPrefixOf url = true → gitAtPre.isPrefixOf url = false →
        get_github_org (some url) = (splitOnChar '/' url).get? 3) ∧
    get_github_org none = none := by
  constructor
  · intro url h1 h2
    simp [get_github_org, h1, h2]
  · rfl

/-- C5 witness: https://github.com/acme/repo yields acme. -/
theorem claim_C5_witness :
    httpPre.isPrefixOf (str "https://github.com/acme/repo") = true ∧
    gitAtPre.isPrefixOf (str "https://github.com/acme/repo") = false ∧
    get_github_org (some (str "https://github.com/acme/repo")) = some (str "acme") :=
  ⟨by decide, by decide,
    (claim_C5.1 (str "https://github.com/acme/repo") (by decide) (by decide)).trans (by decide)⟩

/-- C8: flattening a user whose roles object is null yields admin =
false (and no error: process_user is total); the groups field is the
semicolon join of the group names, the empty string when the group list
is null. -/
theorem claim_C8 : ∀ u : RawUser,
    (u.roles = none → (process_user u).admin = false) ∧
    (process_user u).groups = joinSemi ((u.groups.getD []).map GroupNode.name) ∧
    (u.groups = none → (process_user u).groups = []) := by
  intro u
  refine ⟨fun h => by simp [process_user, h], ?_, fun h => by simp [process_user, h]⟩
  cases hg : u.groups with
  | none => simp [process_user, hg, joinSemi, List.intercalate]
  | some gs =>
    cases gs with
    | nil => simp [process_user, hg, joinSemi, List.intercalate]
    | cons g rest => simp [process_user, hg]

/-- C8 witness: a concrete user with null roles and null groups. -/
theorem claim_C8_witness :
    (process_user exUser).admin = false ∧ (process_user exUser).groups = [] :=
  ⟨(claim_C8 exUser).1 rfl, (claim_C8 exUser).2.2 rfl⟩

/-- C10: the developer count is the number of distinct lower-cased email
values, so emails differing only in letter case count once. -/
theorem claim_C10 :
    (∀ emails : List (Option Str),
        count_unique_developers emails = ((emails.map (Option.map lower)).toFinset).card) ∧
    count_unique_developers [some (str "A@X.com"), some (str "a@x.COM")] = 1 := by
  refine ⟨fun emails => pdUnique_length_eq_card _, by decide⟩

theorem parseAll_none_iff (parse : Str → Option Date) (l : List Row) :
    parseAll parse l = none ↔ ∃ r ∈ l, parse r.created_at = none := by
  induction l with
  | nil => simp [parseAll]
  | cons r rs ih =>
    simp only [parseAll, List.mem_cons]
    cases hp : parse r.created_at with
    | none =>
      exact iff_of_true rfl ⟨r, Or.inl rfl, hp⟩
    | some d =>
      cases hrec : parseAll parse rs with
      | none =>
        obtain ⟨r0, hr0, hn0⟩ := ih.mp hrec
        exact iff_of_true rfl ⟨r0, Or.inr hr0, hn0⟩
      | some ds =>
        refine iff_of_false (by simp) ?_
        rintro ⟨r0, hr0 | hr0, hn0⟩
        · rw [hr0] at hn0
          rw [hn0] at hp
          exact absurd hp (by simp)
        · have := ih.mpr ⟨r0, hr0, hn0⟩
          rw [this] at hrec
          exact absurd hrec (by simp)

theorem parseAll_filter_count (parse : Str → Option Date) (l : List Row)
    (dates : List Date) (hpa : parseAll parse l = some dates) (i : Fin 12) :
    (dates.filter fun d => d.month = i).length =
      (l.filter fun r => (parse r.created_at).map Date.month = some i).length := by
  induction l generalizing dates with
  | nil =>
    simp only [parseAll, Option.some_inj] at hpa
    subst hpa
    simp
  | cons r rs ih =>
    simp only [parseAll] at hpa
    cases hp : parse r.created_at with
    | none => rw [hp] at hpa; exact absurd hpa (by simp)
    | some d =>
      rw [hp] at hpa
      cases hrec : parseAll parse rs with
      | none => rw [hrec] at hpa; exact absurd hpa (by simp)
      | some ds =>
        rw [hrec] at hpa
        simp only [Option.some_inj] at hpa
        subst hpa
        have hm : ((parse r.created_at).map Date.month = some i) ↔ (d.month = i) := by
          simp [hp]
        by_cases hdm : d.month = i
        · simp only [List.filter_cons]
          rw [if_pos (by simpa using hdm), if_pos (by simpa using hm.mpr hdm)]
          simp [ih ds hrec]
        · simp only [List.filter_cons]
          rw [if_neg (by simpa using hdm), if_neg (by simpa using fun hx => hdm (hm.mp hx))]
          exact ih ds hrec

/-- C6: when every workload timestamp parses, the monthly aggregation
succeeds and maps each of the twelve English month names, in calendar
order, to the number of workload rows created in that month of any year
(zero when there is none); two workloads created in March of different
years give March = 2 and every other month 0. -/
theorem claim_C6 :
    (∀ (parse : Str → Option Date) (rows : List Row) (keys : List Str),
        (∀ r ∈ rows.filter (workload_mask keys), (parse r.created_at).isSome = true) →
        analyze_monthly_creations parse rows keys =
          Except.ok ((List.finRange 12).map fun i =>
            (monthName i,
              ((rows.filter (workload_mask keys)).filter fun r =>
                  (parse r.created_at).map Date.month = some i).length)) ∧
        ∃ m, analyze_monthly_creations parse rows keys = Except.ok m ∧
          m.map Prod.fst = monthNames) ∧
    analyze_monthly_creations parseYMD exMRows [str "a"] = Except.ok
      [(str "January", 0), (str "February", 0), (str "March", 2), (str "April", 0),
       (str "May", 0), (str "June", 0), (str "July", 0), (str "August", 0),
       (str "September", 0), (str "October", 0), (str "November", 0), (str "December", 0)] := by
  constructor
  · intro parse rows keys hall
    cases hpa : parseAll parse (rows.filter (workload_mask keys)) with
    | none =>
      obtain ⟨r, hr, hn⟩ := (parseAll_none_iff parse _).mp hpa
      have := hall r hr
      rw [hn] at this
      exact absurd this (by simp)
    | some dates =>
      have heq : analyze_monthly_creations parse rows keys =
          Except.ok ((List.finRange 12).map fun i =>
            (monthName i,
              ((rows.filter (workload_mask keys)).filter fun r =>
                  (parse r.created_at).map Date.month = some i).length)) := by
        simp only [analyze_monthly_creations, hpa]
        congr 1
        apply List.map_congr_left
        intro i _
        rw [parseAll_filter_count parse _ dates hpa i]
      refine ⟨heq, ⟨_, heq, ?_⟩⟩
      rw [List.map_map]
      show (List.finRange 12).map monthName = monthNames
      decide
  · rfl

/-- C7: the monthly aggregation fails (with the whole-column parse
error, producing no mapping at all) exactly when some row selected by
the workload mask has an unparseable creation timestamp. -/
theorem claim_C7 : ∀ (parse : Str → Option Date) (rows : List Row) (keys : List Str),
    analyze_monthly_creations parse rows keys = Except.error () ↔
      ∃ r ∈ rows, workload_mask keys r = true ∧ parse r.created_at = none := by
  intro parse rows keys
  cases hpa : parseAll parse (rows.filter (workload_mask keys)) with
  | none =>
    have hx := (parseAll_none_iff parse _).mp hpa
    simp only [analyze_monthly_creations, hpa]
    simp only [List.mem_filter] at hx
    obtain ⟨r, ⟨hr, hm⟩, hn⟩ := hx
    exact iff_of_true (by simp) ⟨r, hr, hm, hn⟩
  | some dates =>
    simp only [analyze_monthly_creations, hpa]
    have hx : ¬ ∃ r ∈ rows, workload_mask keys r = true ∧ parse r.created_at = none := by
      rintro ⟨r, hr, hm, hn⟩
      have : parseAll parse (rows.filter (workload_mask keys)) = none :=
        (parseAll_none_iff parse _).mpr ⟨r, List.mem_filter.mpr ⟨hr, hm⟩, hn⟩
      rw [this] at hpa
      exact absurd hpa (by simp)
    exact iff_of_false (by simp) hx

/-- C6 witness: the concrete two-March-workloads table satisfies the
parseability hypothesis and the aggregation equality. -/
theorem claim_C6_witness :
    (∀ r ∈ exMRows.filter (workload_mask [str "a"]), (parseYMD r.created_at).isSome = true) ∧
    analyze_monthly_creations parseYMD exMRows [str "a"] =
      Except.ok ((List.finRange 12).map fun i =>
        (monthName i,
          ((exMRows.filter (workload_mask [str "a"])).filter fun r =>
              (parseYMD r.created_at).map Date.month = some i).length)) :=
  ⟨by decide, (claim_C6.1 parseYMD exMRows [str "a"] (by decide)).1⟩

theorem stripRT_append (t : Str) : stripRT (t ++ rtSuffix) = t := by
  have h8 : rtSuffix.length = 8 := by decide
  simp only [stripRT, List.length_append, h8, Nat.add_sub_cancel]
  exact List.take_left t rtSuffix

theorem isSuffixOf_rt_iff (s : Str) :
    rtSuffix.isSuffixOf s = true ↔ ∃ t, s = t ++ rtSuffix := by
  rw [List.isSuffixOf_iff_suffix]
  constructor
  · rintro ⟨t, ht⟩
    exact ⟨t, ht.symm⟩
  · rintro ⟨t, ht⟩
    exact ⟨t, ht.symm⟩

theorem stripRT_of_suffix {s : Str} (h : rtSuffix.isSuffixOf s = true) :
    stripRT s ++ rtSuffix = s := by
  obtain ⟨t, rfl⟩ := (isSuffixOf_rt_iff s).mp h
  rw [stripRT_append]

theorem mem_wsKeys_upsert (l : List (Str × WS)) (p q : Str) :
    q ∈ wsKeys (upsertWS l p) ↔ q ∈ wsKeys l ∨ q = p := by
  simp only [upsertWS, wsKeys]
  by_cases h : (l.any fun pw => decide (pw.1 = p)) = true
  · rw [if_pos h]
    have hp : p ∈ l.map Prod.fst := by
      simp only [List.any_eq_true, decide_eq_true_eq] at h
      obtain ⟨pw, hmem, he⟩ := h
      exact List.mem_map.mpr ⟨pw, hmem, he⟩
    have hkeys : (l.map fun pw => if pw.1 = p then (pw.1, emptyWS) else pw).map Prod.fst
        = l.map Prod.fst := by
      rw [List.map_map]
      apply List.map_congr_left
      intro pw _
      by_cases hpw : pw.1 = p <;> simp [hpw, Function.comp]
    rw [hkeys]
    constructor
    · exact Or.inl
    · rintro (hq | rfl)
      · exact hq
      · exact hp
  · rw [if_neg h]
    simp only [List.map_append, List.map_cons, List.map_nil, List.mem_append,
      List.mem_singleton]

theorem mem_keys_discover_fold (rows : List Row) (acc : List (Str × WS)) (q : Str) :
    q ∈ wsKeys (rows.foldl discoverStep acc) ↔
      q ∈ wsKeys acc ∨
        ∃ s, (∃ r ∈ rows, r.service = some s) ∧ rtSuffix.isSuffixOf s = true ∧ q = stripRT s := by
  induction rows generalizing acc with
  | nil => simp
  | cons r rows ih =>
    simp only [List.foldl_cons]
    rw [ih]
    cases hr : r.service with
    | none =>
      simp only [discoverStep, hr]
      constructor
      · rintro (h | ⟨s, ⟨r0, hr0, hs0⟩, hsuf, rfl⟩)
        · exact Or.inl h
        · exact Or.inr ⟨s, ⟨r0, List.mem_cons_of_mem _ hr0, hs0⟩, hsuf, rfl⟩
      · rintro (h | ⟨s, ⟨r0, hr0, hs0⟩, hsuf, rfl⟩)
        · exact Or.inl h
        · cases List.mem_cons.mp hr0 with
          | inl he =>
            subst he
            rw [hr] at hs0
            exact absurd hs0 (by simp)
          | inr hm => exact Or.inr ⟨s, ⟨r0, hm, hs0⟩, hsuf, rfl⟩
    | some s =>
      simp only [discoverStep, hr]
      by_cases hsuf : rtSuffix.isSuffixOf s = true
      · rw [if_pos hsuf, mem_wsKeys_upsert]
        constructor
        · rintro ((h | rfl) | ⟨s0, ⟨r0, hr0, hs0⟩, hsuf0, rfl⟩)
          · exact Or.inl h
          · exact Or.inr ⟨s, ⟨r, List.mem_cons_self r rows, hr⟩, hsuf, rfl⟩
          · exact Or.inr ⟨s0, ⟨r0, List.mem_cons_of_mem _ hr0, hs0⟩, hsuf0, rfl⟩
        · rintro (h | ⟨s0, ⟨r0, hr0, hs0⟩, hsuf0, rfl⟩)
          · exact Or.inl (Or.inl h)
          · cases List.mem_cons.mp hr0 with
            | inl he =>
              subst he
              rw [hr] at hs0
              injection hs0 with hs0
              subst hs0
              exact Or.inl (Or.inr rfl)
            | inr hm => exact Or.inr ⟨s0, ⟨r0, hm, hs0⟩, hsuf0, rfl⟩
      · rw [if_neg hsuf]
        constructor
        · rintro (h | ⟨s0, ⟨r0, hr0, hs0⟩, hsuf0, rfl⟩)
          · exact Or.inl h
          · exact Or.inr ⟨s0, ⟨r0, List.mem_cons_of_mem _ hr0, hs0⟩, hsuf0, rfl⟩
        · rintro (h | ⟨s0, ⟨r0, hr0, hs0⟩, hsuf0, rfl⟩)
          · exact Or.inl h
          · cases List.mem_cons.mp hr0 with
            | inl he =>
              subst he
              rw [hr] at hs0
              injection hs0 with hs0
              subst hs0
              exact absurd hsuf0 hsuf
            | inr hm => exact Or.inr ⟨s0, ⟨r0, hm, hs0⟩, hsuf0, rfl⟩

theorem wsKeys_wsStep (wss : List (Str × WS)) (r : Row) :
    wsKeys (wsStep wss r) = wsKeys wss := by
  cases hr : r.service with
  | none => simp [wsStep, hr]
  | some s =>
    cases hf : wss.find? fun pw => (pw.1 ++ ['-']).isPrefixOf s with
    | none => simp [wsStep, hr, hf]
    | some pw0 =>
      by_cases hsuf : rtSuffix.isSuffixOf s = true
      · simp [wsStep, hr, hf, hsuf]
      · have hsuf' : rtSuffix.isSuffixOf s = false := by
          cases hb : rtSuffix.isSuffixOf s
          · rfl
          · exact absurd hb hsuf
        have hstep : wsStep wss r =
            wss.map fun qw =>
              if qw.1 = pw0.1 then (qw.1, addWorkload qw.2 s r.repository) else qw := by
          simp [wsStep, hr, hf, hsuf']
        rw [hstep]
        simp only [wsKeys, List.map_map]
        apply List.map_congr_left
        intro qw _
        by_cases hq : qw.1 = pw0.1 <;> simp [hq, Function.comp]

theorem wsKeys_foldl_wsStep (rows : List Row) (wss : List (Str × WS)) :
    wsKeys (rows.foldl wsStep wss) = wsKeys wss := by
  induction rows generalizing wss with
  | nil => rfl
  | cons r rows ih => rw [List.foldl_cons, ih, wsKeys_wsStep]

theorem keysFind_eq (wss : List (Str × WS)) (y : Str) :
    ((wsKeys wss).find? fun q => (q ++ ['-']).isPrefixOf y)
      = (wss.find? fun pw => (pw.1 ++ ['-']).isPrefixOf y).map Prod.fst := by
  simp only [wsKeys]
  rw [List.find?_map]
  rfl

theorem wlWS_wsStep (wss : List (Str × WS)) (r : Row) (p x : Str) :
    x ∈ wlWS (wsStep wss r) p ↔
      x ∈ wlWS wss p ∨
        (r.service = some x ∧
          ((wsKeys wss).find? fun q => (q ++ ['-']).isPrefixOf x) = some p ∧
          rtSuffix.isSuffixOf x = false) := by
  cases hr : r.service with
  | none =>
    have hstep : wsStep wss r = wss := by simp [wsStep, hr]
    rw [hstep]
    simp
  | some s =>
    cases hf : wss.find? fun pw => (pw.1 ++ ['-']).isPrefixOf s with
    | none =>
      have hstep : wsStep wss r = wss := by simp [wsStep, hr, hf]
      rw [hstep]
      constructor
      · exact Or.inl
      · rintro (h | ⟨hsx, hfind, hsufx⟩)
        · exact h
        · injection hsx with hsx
          subst hsx
          rw [keysFind_eq, hf] at hfind
          exact absurd hfind (by simp)
    | some pw0 =>
      by_cases hsuf : rtSuffix.isSuffixOf s = true
      · have hstep : wsStep wss r = wss := by simp [wsStep, hr, hf, hsuf]
        rw [hstep]
        constructor
        · exact Or.inl
        · rintro (h | ⟨hsx, hfind, hsufx⟩)
          · exact h
          · injection hsx with hsx
            subst hsx
            exact absurd hsufx (by simp [hsuf])
      · have hsuf' : rtSuffix.isSuffixOf s = false := by
          cases hb : rtSuffix.isSuffixOf s
          · rfl
          · exact absurd hb hsuf
        have hstep : wsStep wss r =
            wss.map fun qw =>
              if qw.1 = pw0.1 then (qw.1, addWorkload qw.2 s r.repository) else qw := by
          simp [wsStep, hr, hf, hsuf']
        rw [hstep]
        have hfind_map : (wss.map fun qw =>
              if qw.1 = pw0.1 then (qw.1, addWorkload qw.2 s r.repository) else qw).find?
              (fun pw => decide (pw.1 = p))
            = (wss.find? fun pw => decide (pw.1 = p)).map
                fun qw => if qw.1 = pw0.1 then (qw.1, addWorkload qw.2 s r.repository) else qw := by
          have hpred : ((fun pw : Str × WS => decide (pw.1 = p)) ∘ fun qw =>
                if qw.1 = pw0.1 then (qw.1, addWorkload qw.2 s r.repository) else qw)
              = fun pw : Str × WS => decide (pw.1 = p) := by
            funext qw
            by_cases hq : qw.1 = pw0.1 <;> simp [hq, Function.comp]
          rw [List.find?_map, hpred]
        cases hq : wss.find? fun pw => decide (pw.1 = p) with
        | none =>
          have hwlr : wlWS wss p = ∅ := by simp [wlWS, hq]
          have hwll : wlWS (wss.map fun qw =>
              if qw.1 = pw0.1 then (qw.1, addWorkload qw.2 s r.repository) else qw) p = ∅ := by
            simp [wlWS, hfind_map, hq]
          rw [hwll, hwlr]
          refine iff_of_false (by simp) ?_
          rintro (h | ⟨hsx, hfind, hsufx⟩)
          · simp at h
          · injection hsx with hsx
            subst hsx
            rw [keysFind_eq, hf] at hfind
            simp only [Option.map_some'] at hfind
            injection hfind with hfind
            have hpw0mem := List.mem_of_find?_eq_some hf
            have hnone := List.find?_eq_none.mp hq pw0 hpw0mem
            simp [hfind] at hnone
        | some qw1 =>
          have hq1 : qw1.1 = p := by
            have := List.find?_some hq
            simpa using this
          have hwlr : wlWS wss p = qw1.2.workloads := by simp [wlWS, hq]
          have hwll : wlWS (wss.map fun qw =>
              if qw.1 = pw0.1 then (qw.1, addWorkload qw.2 s r.repository) else qw) p
              = (if qw1.1 = pw0.1 then (qw1.1, addWorkload qw1.2 s r.repository) else qw1).2.workloads := by
            simp only [wlWS, hfind_map, hq, Option.map_some']
          rw [hwll, hwlr]
          by_cases hppw : qw1.1 = pw0.1
          · rw [if_pos hppw]
            have hwlds : (qw1.1, addWorkload qw1.2 s r.repository).2.workloads
                = insert s qw1.2.workloads := rfl
            rw [hwlds]
            constructor
            · intro h
              rcases Finset.mem_insert.mp h with rfl | hmem
              · refine Or.inr ⟨rfl, ?_, hsuf'⟩
                rw [keysFind_eq, hf]
                simp only [Option.map_some']
                rw [← hppw, hq1]
              · exact Or.inl hmem
            · rintro (h | ⟨hsx, hfind, hsufx⟩)
              · exact Finset.mem_insert.mpr (Or.inr h)
              · injection hsx with hsx
                subst hsx
                exact Finset.mem_insert.mpr (Or.inl rfl)
          · rw [if_neg hppw]
            constructor
            · exact Or.inl
            · rintro (h | ⟨hsx, hfind, hsufx⟩)
              · exact h
              · injection hsx with hsx
                subst hsx
                rw [keysFind_eq, hf] at hfind
                simp only [Option.map_some'] at hfind
                injection hfind with hfind
                exact absurd (hq1.trans hfind.symm) hppw

theorem wlWS_foldl (rows : List Row) (wss : List (Str × WS)) (p x : Str) :
    x ∈ wlWS (rows.foldl wsStep wss) p ↔
      x ∈ wlWS wss p ∨
        ((∃ r ∈ rows, r.service = some x) ∧
          ((wsKeys wss).find? fun q => (q ++ ['-']).isPrefixOf x) = some p ∧
          rtSuffix.isSuffixOf x = false) := by
  induction rows generalizing wss with
  | nil => simp
  | cons r rows ih =>
    simp only [List.foldl_cons]
    rw [ih, wsKeys_wsStep, wlWS_wsStep]
    simp only [List.exists_mem_cons_iff]
    tauto

theorem upsertWS_values_empty (l : List (Str × WS)) (p : Str)
    (h : ∀ pw ∈ l, pw.2 = emptyWS) : ∀ pw ∈ upsertWS l p, pw.2 = emptyWS := by
  intro pw hmem
  simp only [upsertWS] at hmem
  by_cases hc : (l.any fun qw => decide (qw.1 = p)) = true
  · rw [if_pos hc] at hmem
    obtain ⟨qw, hq, hval⟩ := List.mem_map.mp hmem
    by_cases hq1 : qw.1 = p
    · rw [if_pos hq1] at hval
      rw [← hval]
    · rw [if_neg hq1] at hval
      rw [← hval]
      exact h qw hq
  · rw [if_neg hc] at hmem
    rcases List.mem_append.mp hmem with hin | hin
    · exact h pw hin
    · rw [List.mem_singleton.mp hin]

theorem discover_values_empty (rows : List Row) :
    ∀ pw ∈ discoverWS rows, pw.2 = emptyWS := by
  suffices h : ∀ (rs : List Row) (acc : List (Str × WS)),
      (∀ pw ∈ acc, pw.2 = emptyWS) → ∀ pw ∈ rs.foldl discoverStep acc, pw.2 = emptyWS by
    exact h rows [] (by simp)
  intro rs
  induction rs with
  | nil =>
    intro acc hacc
    simpa only [List.foldl_nil] using hacc
  | cons r rs ih =>
    intro acc hacc
    simp only [List.foldl_cons]
    apply ih
    intro pw hpw
    cases hr : r.service with
    | none =>
      rw [show discoverStep acc r = acc from by simp [discoverStep, hr]] at hpw
      exact hacc pw hpw
    | some s =>
      cases hsuf : rtSuffix.isSuffixOf s with
      | false =>
        rw [show discoverStep acc r = acc from by simp [discoverStep, hr, hsuf]] at hpw
        exact hacc pw hpw
      | true =>
        rw [show discoverStep acc r = upsertWS acc (stripRT s) from by
          simp [discoverStep, hr, hsuf]] at hpw
        exact upsertWS_values_empty acc (stripRT s) hacc pw hpw

theorem wlWS_discover_empty (rows : List Row) (p : Str) :
    wlWS (discoverWS rows) p = ∅ := by
  cases hf : (discoverWS rows).find? fun pw => decide (pw.1 = p) with
  | none => simp [wlWS, hf]
  | some pw =>
    have hmem := List.mem_of_find?_eq_some hf
    have := discover_values_empty rows pw hmem
    simp [wlWS, hf, this, emptyWS]

theorem workloads_char (rows : List Row) (p x : Str) :
    x ∈ workloadsOf rows p ↔
      (∃ r ∈ rows, r.service = some x) ∧
        ((wsKeys (discoverWS rows)).find? fun q => (q ++ ['-']).isPrefixOf x) = some p ∧
        rtSuffix.isSuffixOf x = false := by
  unfold workloadsOf analyze_services
  rw [wlWS_foldl, wlWS_discover_empty]
  simp

/-- C1: the discovered workspace keys are exactly the non-null service
names ending in -runtime with that suffix stripped; equivalently a key p
exists exactly when a service named p ++ -runtime is present; the
assignment pass never changes the key set; and a-runtime with
a-b-runtime give the two distinct keys a and a-b. -/
theorem claim_C1 :
    (∀ (rows : List Row) (p : Str),
        p ∈ wsKeys (discoverWS rows) ↔
          ∃ s, (∃ r ∈ rows, r.service = some s) ∧
            rtSuffix.isSuffixOf s = true ∧ p = stripRT s) ∧
    (∀ (rows : List Row) (p : Str),
        p ∈ wsKeys (discoverWS rows) ↔ ∃ r ∈ rows, r.service = some (p ++ rtSuffix)) ∧
    (∀ rows : List Row, wsKeys (analyze_services rows) = wsKeys (discoverWS rows)) ∧
    wsKeys (discoverWS exDiscoverRows) = [str "a", str "a-b"] := by
  have hfirst : ∀ (rows : List Row) (p : Str),
      p ∈ wsKeys (discoverWS rows) ↔
        ∃ s, (∃ r ∈ rows, r.service = some s) ∧
          rtSuffix.isSuffixOf s = true ∧ p = stripRT s := by
    intro rows p
    have := mem_keys_discover_fold rows [] p
    simpa only [discoverWS, wsKeys, List.map_nil, List.not_mem_nil, false_or] using this
  refine ⟨hfirst, ?_, ?_, by decide⟩
  · intro rows p
    rw [hfirst rows p]
    constructor
    · rintro ⟨s, ⟨r, hr, hs⟩, hsuf, rfl⟩
      refine ⟨r, hr, ?_⟩
      rw [stripRT_of_suffix hsuf]
      exact hs
    · rintro ⟨r, hr, hs⟩
      refine ⟨p ++ rtSuffix, ⟨r, hr, hs⟩, ?_, ?_⟩
      · exact (isSuffixOf_rt_iff (p ++ rtSuffix)).mpr ⟨p, rfl⟩
      · rw [stripRT_append]
  · intro rows
    exact wsKeys_foldl_wsStep rows (discoverWS rows)

/-- C2: a name x is a workload of workspace p exactly when x is a
non-null service name, p is the FIRST discovered key (in discovery
order) with x starting with p ++ -, and x does not end in -runtime
(so each service lands in at most one workspace); on the table
payments-runtime, payments-api, payments-worker, other-runtime the
payments workspace has exactly the two workloads payments-api and
payments-worker and the other workspace has none. -/
theorem claim_C2 :
    (∀ (rows : List Row) (p x : Str),
        x ∈ workloadsOf rows p ↔
          (∃ r ∈ rows, r.service = some x) ∧
            ((wsKeys (discoverWS rows)).find? fun q => (q ++ ['-']).isPrefixOf x) = some p ∧
            rtSuffix.isSuffixOf x = false) ∧
    workloadsOf exPayRows (str "payments") = {str "payments-api", str "payments-worker"} ∧
    (workloadsOf exPayRows (str "payments")).card = 2 ∧
    workloadsOf exPayRows (str "other") = ∅ :=
  ⟨workloads_char, by decide, by decide, by decide⟩

/-- C9: a service whose name ends in -runtime is never in any
workspace's workload set, whatever the table and the workspace. -/
theorem claim_C9 : ∀ (rows : List Row) (p x : Str),
    rtSuffix.isSuffixOf x = true → x ∉ workloadsOf rows p := by
  intro rows p x h hmem
  have hc := (workloads_char rows p x).mp hmem
  rw [h] at hc
  exact absurd hc.2.2 (by simp)

/-- C9 witness: a-b-runtime ends in -runtime and is not a workload of
workspace a even though it starts with a-. -/
theorem claim_C9_witness :
    rtSuffix.isSuffixOf (str "a-b-runtime") = true ∧
    str "a-b-runtime" ∉ workloadsOf exDiscoverRows (str "a") :=
  ⟨by decide, claim_C9 exDiscoverRows (str "a") (str "a-b-runtime") (by decide)⟩
